import Mathlib

/-!
Verification of the battle-pack container codec, byte-signature scanner and
fixed-stride record patcher of `ff12tza-utils` (`src/battle_pack/mod.rs`).

Bytes are modelled as `Nat` (real files hold values < 256; nothing below
depends on that bound), a file's contents as a `List Nat`, and an open
read/write handle as contents plus a cursor (`FileState`).
-/

namespace FF12

/-- `EQUIPMENT_SIGNATURE: [u8; 3] = [68, 113, 0]` (`mod.rs` line 19). -/
def EQUIPMENT_SIGNATURE : List Nat := [68, 113, 0]

/-- `OFFSET_FROM_SIGNATURE: usize = 8` (`mod.rs` line 20). -/
def OFFSET_FROM_SIGNATURE : Nat := 8

/-- `FLYING_FLAG_OFFSET: usize = 7` (`mod.rs` line 21). -/
def FLYING_FLAG_OFFSET : Nat := 7

/-- `EQUIPMENT_STRUCT_SIZE: usize = 52` (`mod.rs` line 22). -/
def EQUIPMENT_STRUCT_SIZE : Nat := 52

/-- Whether `sig` occurs in `data` starting at byte offset `i`. -/
def matchesAt (data sig : List Nat) (i : Nat) : Bool :=
  decide ((data.drop i).take sig.length = sig)

/-- Search offsets `i, i+1, ...` (at most `remaining` of them) for the
signature, returning the first match. -/
def locate_aux (data sig : List Nat) (i remaining : Nat) : Option Nat :=
  match remaining with
  | 0 => none
  | r + 1 => if matchesAt data sig i then some i else locate_aux data sig (i + 1) r

/-- Modelled from the spec: `utils::locate_signature` lives in the `utils`
module, which is not under `src/`. Per §4.1 (ByteSignatureScanner) it produces
the byte offset, from stream start, of the first occurrence of the exact
signature byte sequence, or reports not-found as a normal outcome. -/
def locate_signature (data sig : List Nat) : Option Nat :=
  locate_aux data sig 0 (data.length + 1)

/-- An open file handle: byte contents plus cursor position. -/
structure FileState where
  data : List Nat
  pos : Nat
deriving Repr, DecidableEq

/-- `file.seek(SeekFrom::Start(p))`. -/
def fseek (f : FileState) (p : Nat) : FileState := { f with pos := p }

/-- `file.read_u8()`: one byte at the cursor, advancing it; fails at end of
file (the `expect` in the loop aborts the process on this failure). -/
def freadU8 (f : FileState) : Option (Nat × FileState) :=
  if f.pos < f.data.length then
    some (f.data.getD f.pos 0, { f with pos := f.pos + 1 })
  else none

/-- `file.write_u8(b)` at a cursor inside the existing file, advancing it.
In `allow_all_flying` every write is preceded by a successful read at the
same offset, so only the in-bounds case is ever exercised. -/
def fwriteU8 (f : FileState) (b : Nat) : Option FileState :=
  if f.pos < f.data.length then
    some { data := f.data.set f.pos b, pos := f.pos + 1 }
  else none

/-- One iteration of the patch loop (`mod.rs` lines 135-138): seek to `id`,
read one byte, seek back to `id`, write the byte OR `0b100`. -/
def patchStep (f : FileState) (id : Nat) : Option FileState :=
  match freadU8 (fseek f id) with
  | none => none
  | some (byte, f₁) => fwriteU8 (fseek f₁ id) (byte ||| 4)

/-- The patch loop over a list of byte offsets; an I/O failure aborts the
whole operation, leaving the bytes already written in place (`expect`
panics; there is no rollback). -/
def patchRun (f : FileState) : List Nat → FileState × Bool
  | [] => (f, true)
  | id :: rest =>
    match patchStep f id with
    | some f₁ => patchRun f₁ rest
    | none => (f, false)

/-- The byte offsets the loop visits:
`(0usize..=199).map(|a| a * EQUIPMENT_STRUCT_SIZE + equip_array + FLYING_FLAG_OFFSET)`
(`mod.rs` line 134). -/
def patchIds (equip_array : Nat) : List Nat :=
  (List.range 200).map fun a =>
    a * EQUIPMENT_STRUCT_SIZE + equip_array + FLYING_FLAG_OFFSET

/-- How `allow_all_flying` ends: normal completion, aborting with the
signature-not-found report (`exit(7)`), or aborting on an I/O failure
inside the loop (`expect` panic). -/
inductive PatchStatus
  | success
  | sigNotFound
  | ioError
deriving Repr, DecidableEq

/-- Outcome of the patch operation: its status together with the bytes the
file holds when the process ends (also after an abort). -/
structure PatchOutcome where
  status : PatchStatus
  data : List Nat
deriving Repr, DecidableEq

/-- `allow_all_flying` (`mod.rs` lines 118-145) acting on the opened file's
bytes: locate the equipment signature (when absent, exit 7 touching no
byte), take the array base `loc + OFFSET_FROM_SIGNATURE`, then run the
read-OR-write loop over the 200 record flag bytes. -/
def allow_all_flying (data : List Nat) : PatchOutcome :=
  match locate_signature data EQUIPMENT_SIGNATURE with
  | none => ⟨.sigNotFound, data⟩
  | some loc =>
    let r := patchRun ⟨data, 0⟩ (patchIds (loc + OFFSET_FROM_SIGNATURE))
    ⟨if r.2 then .success else .ioError, r.1.data⟩

/-- The pure effect of one loop iteration on the file contents: the byte at
offset `id` is replaced by itself OR `0b100`. -/
def setFlagByte (d : List Nat) (id : Nat) : List Nat :=
  d.set id (d.getD id 0 ||| 4)

/-! ## The container codec

`src/battle_pack/io.rs` (`BattlePackReader`, `BattlePackWriter`) is not under
`src/`; the codec below is modelled from the spec (§3, §4.2, §4.3): a count
field, a per-section (offset, length) table built from running totals, then
the opaque section payloads back to back. The spec leaves the concrete field
widths to real container samples; fixed 32-bit little-endian words are used
here. -/

/-- The 4 little-endian bytes of a 32-bit value. -/
def toLE32 (n : Nat) : List Nat :=
  [n % 256, n / 256 % 256, n / 65536 % 256, n / 16777216 % 256]

/-- Total byte length of a list of section buffers. -/
def sumLen (sections : List (List Nat)) : Nat :=
  (sections.map List.length).sum

/-- The section table: one (offset, length) pair per section, offsets being
running totals starting at the end of the header. -/
def mkTable (off : Nat) : List (List Nat) → List Nat
  | [] => []
  | s :: rest => toLE32 off ++ toLE32 s.length ++ mkTable (off + s.length) rest

/-- Modelled from the spec: `BattlePackWriter` (§4.3) — given the declared
section count and the section buffers in index order, produce the container:
count word, section table, payloads. -/
def packContainer (sections : List (List Nat)) : List Nat :=
  toLE32 sections.length ++ mkTable (4 + 8 * sections.length) sections ++ sections.flatten

/-- The 32-bit little-endian word of a container at byte offset `off`. -/
def readLE32At (c : List Nat) (off : Nat) : Nat :=
  c.getD off 0 + 256 * c.getD (off + 1) 0 +
    65536 * c.getD (off + 2) 0 + 16777216 * c.getD (off + 3) 0

/-- Modelled from the spec: `BattlePackReader::section_count` (§4.2) — the
count parsed from the container's table, no I/O after construction. -/
def section_count (c : List Nat) : Nat := readLE32At c 0

/-- Modelled from the spec: `BattlePackReader::section_begin_to_end(i, buf)`
(§4.2) — look up the table entry of section `i`, re-seek to its recorded
offset and stream exactly its declared length; an out-of-range index or a
truncated container is an error, never a silently short section. -/
def section_begin_to_end (c : List Nat) (i : Nat) : Option (List Nat) :=
  if i < section_count c then
    let off := readLE32At c (4 + 8 * i)
    let len := readLE32At c (4 + 8 * i + 4)
    if off + len ≤ c.length then some ((c.drop off).take len) else none
  else none

/-! ## The repack directory filter and ordering (`mod.rs` lines 75-115) -/

/-- Rust `str::ends_with`: `suffix` matches the end of `l`. -/
def endsWith (l suffix : List Char) : Bool :=
  decide (l.drop (l.length - suffix.length) = suffix)

/-- The digit-sequence part of Rust `u8::from_str`: one or more ASCII
digits whose decimal value fits in a `u8`. -/
def parseDigits (ds : List Char) : Option Nat :=
  if ds = [] then none
  else if ds.all Char.isDigit then
    if ds.foldl (fun a c => a * 10 + (c.toNat - 48)) 0 ≤ 255 then
      some (ds.foldl (fun a c => a * 10 + (c.toNat - 48)) 0)
    else none
  else none

/-- Rust `u8::from_str` (`str::parse::<u8>`): an optional leading `+` sign
followed by one or more ASCII digits, value fitting in a `u8`; a leading `-`
and every other character are rejected. -/
def u8_from_str (s : List Char) : Option Nat :=
  match s with
  | [] => none
  | c :: rest => if c = '+' then parseDigits rest else parseDigits (c :: rest)

/-- The repack directory filter (`mod.rs` lines 89-95): keep a file name of
length 14 that splits as `section_` ++ t ++ `.bin` where the two characters
`t` parse as a Rust `u8`. Names are modelled as character lists; on the
ASCII names at issue this agrees with the source's byte-level view. -/
def repackFilter (name : List Char) : Bool :=
  name.length == 14 &&
    (decide (name.take 8 = "section_".toList) &&
      (endsWith (name.drop 8) ".bin".toList &&
        (u8_from_str ((name.drop 8).take 2)).isSome))

/-- The naming convention as the spec words it (§6): `section_`, a two-digit
zero-padded decimal index, `.bin`. Stated from the spec's words, to be
compared with the source-derived `repackFilter`. -/
def specNameConvention (name : List Char) : Bool :=
  name.length == 14 &&
    (decide (name.take 8 = "section_".toList) &&
      (((name.drop 8).take 2).all Char.isDigit &&
        decide (name.drop 10 = ".bin".toList)))

/-- The 14-character names accepted by the source filter beyond the spec's
convention: `section_`, a `+` sign, one digit, `.bin`. -/
def plusNameForm (name : List Char) : Bool :=
  name.length == 14 &&
    (decide (name.take 8 = "section_".toList) &&
      (name.getD 8 ' ' == '+' &&
        ((name.getD 9 ' ').isDigit && decide (name.drop 10 = ".bin".toList))))

/-- The repack sort key (`mod.rs` line 97): the `u8` parsed from characters
8..10 of the file name (the `unwrap` is safe for names the filter kept). -/
def sortKey (name : List Char) : Nat :=
  (u8_from_str ((name.drop 8).take 2)).getD 0

/-- One directory entry the walk produced: file name and file contents. -/
structure DirEntry where
  name : List Char
  contents : List Nat
deriving Repr, DecidableEq

/-- `repack` (`mod.rs` lines 75-115) over an abstract directory listing in
the iteration order the walk produced: filter the names, sort by the parsed
index (`sort_by_key`, a stable sort), read each kept file and hand its
buffer to one `write_section` call in that order. Returns the sequence of
`write_section` payloads. -/
def repackWrites (listing : List DirEntry) : List (List Nat) :=
  (((listing.filter fun e => repackFilter e.name).mergeSort
      fun a b => decide (sortKey a.name ≤ sortKey b.name)).map fun e => e.contents)

/-! ## Failure paths and exit codes -/

/-- The failure paths of the core visible in `mod.rs`. -/
inductive FailureCategory
  | dirCreationFailed
  | containerOpenFailed
  | containerParseFailed
  | sectionReadFailed
  | outputFileCreateFailed
  | sectionWriteFailed
  | patchOpenFailed
  | signatureNotFound
deriving Repr, DecidableEq

/-- The process exit status of each failure path, with the numeric argument
each call site passes in `mod.rs`: directory creation fails with 1 (line
29), container open with 1 (line 35), reader construction/parse with 2
(line 42), section read with 2 (line 68), output-file creation with 3 (line
53), section write with 4 (line 63), patch-file open with -1 (line 125) and
signature-not-found with 7 (line 131). Modelled from the spec for the
`error_abort!` macro itself (its defining module is not under `src/`): §6
fixes that each of these paths ends the process with the non-zero status
carried at the call site. -/
def exitCode : FailureCategory → Int
  | .dirCreationFailed => 1
  | .containerOpenFailed => 1
  | .containerParseFailed => 2
  | .sectionReadFailed => 2
  | .outputFileCreateFailed => 3
  | .sectionWriteFailed => 4
  | .patchOpenFailed => -1
  | .signatureNotFound => 7

/-! ## Unpack file naming and effect order -/

/-- The decimal digit character of `n < 10`. -/
def digitChar (n : Nat) : Char := Char.ofNat (48 + n)

/-- The decimal digits of `n`, most significant first, with enough fuel. -/
def natDigitsAux : Nat → Nat → List Char
  | 0, _ => []
  | fuel + 1, n =>
    if n < 10 then [digitChar n]
    else natDigitsAux fuel (n / 10) ++ [digitChar (n % 10)]

/-- The decimal digits of `n`, most significant first. -/
def natDigits (n : Nat) : List Char := natDigitsAux (n + 1) n

/-- Rust `format!("{:02}", i)`: the decimal digits of `i`, left-padded with
`0` to width two. -/
def fmt02 (i : Nat) : List Char :=
  if (natDigits i).length < 2 then
    List.replicate (2 - (natDigits i).length) '0' ++ natDigits i
  else natDigits i

/-- The per-section output file name `format!("section_{:02}.bin", i)`
(`mod.rs` line 48). -/
def unpackName (i : Nat) : List Char :=
  "section_".toList ++ fmt02 i ++ ".bin".toList

/-- Rust `Path::file_stem` on a path's final component: everything before
the last `.`, except that a name whose only `.` leads it (a hidden file) is
all stem. -/
def rustFileStem (name : List Char) : List Char :=
  match name.reverse.findIdx? (· == '.') with
  | none => name
  | some j =>
    let i := name.length - 1 - j
    if i = 0 then name else name.take i

/-- Rust `Path::with_extension` on a path's final component: the stem, then
`.` and the new extension (for a nonempty new extension). -/
def with_extension (name ext : List Char) : List Char :=
  if ext = [] then rustFileStem name else rustFileStem name ++ '.' :: ext

/-- A filesystem effect of `unpack`. -/
inductive FsOp
  | createDirAll (path : List Char)
  | openRead (path : List Char)
  | createFile (dir : List Char) (name : List Char)
  | writeFile (dir : List Char) (name : List Char) (data : List Nat)
deriving Repr, DecidableEq

/-- `unpack` (`mod.rs` lines 24-72) as its sequence of filesystem effects on
the successful path, given the container's parsed sections: pick the output
directory — the one supplied, or the input path with its extension replaced
by `unpacked` (line 26) — create it recursively
(`DirBuilder::new().recursive(true)`, line 28), open the container (line
32), then per section create and fill `section_{:02}.bin` (lines 46-71). -/
def unpackEffects (battle_pack : List Char) (output : Option (List Char))
    (sections : List (List Nat)) : List FsOp :=
  let out := output.getD (with_extension battle_pack "unpacked".toList)
  FsOp.createDirAll out :: FsOp.openRead battle_pack ::
    ((List.range sections.length).flatMap fun i =>
      [FsOp.createFile out (unpackName i),
       FsOp.writeFile out (unpackName i) (sections.getD i [])])

/-- A concrete well-formed input for witnesses: the equipment signature at
offset 0 followed by enough zero bytes for all 200 records. -/
def sampleFile : List Nat := EQUIPMENT_SIGNATURE ++ List.replicate 10400 0

/-! ## Helper lemmas: the patch loop -/

theorem or4_idem (x : Nat) : x ||| 4 ||| 4 = x ||| 4 := by
  rw [Nat.or_assoc, Nat.or_self]

theorem setFlagByte_length (d : List Nat) (id : Nat) :
    (setFlagByte d id).length = d.length :=
  List.length_set ..

theorem getD_set_ne {d : List Nat} {i j : Nat} (h : i ≠ j) (a : Nat) :
    (d.set i a).getD j 0 = d.getD j 0 := by
  simp [List.getD_eq_getElem?_getD, List.getElem?_set_ne h]

theorem getD_set_self {d : List Nat} {i : Nat} (h : i < d.length) (a : Nat) :
    (d.set i a).getD i 0 = a := by
  simp [List.getD_eq_getElem?_getD, List.getElem?_set, h]

theorem set_getD_self (l : List Nat) (i : Nat) (h : i < l.length) :
    l.set i (l.getD i 0) = l := by
  apply List.ext_getElem?
  intro n
  rw [List.getElem?_set]
  by_cases hin : i = n
  · subst hin
    simp only [h, if_pos rfl, if_pos]
    rw [List.getD_eq_getElem?_getD]
    cases hx : l[i]? with
    | none => simp [List.getElem?_eq_none_iff] at hx; omega
    | some v => simp
  · simp [hin]

theorem patchStep_eq_some {f : FileState} {id : Nat} (h : id < f.data.length) :
    patchStep f id = some ⟨setFlagByte f.data id, id + 1⟩ := by
  simp [patchStep, fseek, freadU8, fwriteU8, h, setFlagByte]

theorem patchStep_eq_none {f : FileState} {id : Nat} (h : ¬ id < f.data.length) :
    patchStep f id = none := by
  simp [patchStep, fseek, freadU8, h]

theorem patchRun_success (ids : List Nat) : ∀ f : FileState,
    (∀ id ∈ ids, id < f.data.length) →
    (patchRun f ids).1.data = ids.foldl setFlagByte f.data ∧
      (patchRun f ids).2 = true := by
  induction ids with
  | nil => intro f _; exact ⟨rfl, rfl⟩
  | cons id rest ih =>
    intro f h
    have hid : id < f.data.length := h id (List.mem_cons_self ..)
    have hrest : ∀ x ∈ rest, x < (setFlagByte f.data id).length := by
      intro x hx
      rw [setFlagByte_length]
      exact h x (List.mem_cons_of_mem _ hx)
    simp only [patchRun, patchStep_eq_some hid, List.foldl_cons]
    exact ih ⟨setFlagByte f.data id, id + 1⟩ hrest

theorem patchRun_frame (ids : List Nat) : ∀ f : FileState,
    (patchRun f ids).1.data.length = f.data.length ∧
    (∀ j, j ∉ ids → (patchRun f ids).1.data[j]? = f.data[j]?) ∧
    (∀ j, (patchRun f ids).1.data.getD j 0 = f.data.getD j 0 ∨
      (patchRun f ids).1.data.getD j 0 = f.data.getD j 0 ||| 4) := by
  induction ids with
  | nil => intro f; exact ⟨rfl, fun _ _ => rfl, fun _ => Or.inl rfl⟩
  | cons id rest ih =>
    intro f
    by_cases hid : id < f.data.length
    · simp only [patchRun, patchStep_eq_some hid]
      obtain ⟨ihl, ihf, ihor⟩ := ih ⟨setFlagByte f.data id, id + 1⟩
      refine ⟨by rw [ihl]; exact setFlagByte_length .., ?_, ?_⟩
      · intro j hj
        have hj1 : j ∉ rest := fun hm => hj (List.mem_cons_of_mem _ hm)
        have hj2 : id ≠ j := fun he => hj (he ▸ List.mem_cons_self ..)
        rw [ihf j hj1]
        exact List.getElem?_set_ne hj2
      · intro j
        have hbase : (setFlagByte f.data id).getD j 0 = f.data.getD j 0 ∨
            (setFlagByte f.data id).getD j 0 = f.data.getD j 0 ||| 4 := by
          by_cases hji : id = j
          · subst hji; exact Or.inr (getD_set_self hid _)
          · exact Or.inl (getD_set_ne hji _)
        rcases ihor j with h | h <;> rcases hbase with h2 | h2
        · exact Or.inl (by rw [h]; exact h2)
        · exact Or.inr (by rw [h]; exact h2)
        · exact Or.inr (by rw [h, h2])
        · exact Or.inr (by rw [h, h2, or4_idem])
    · simp only [patchRun, patchStep_eq_none hid]
      simp

theorem patchRun_mem_getD (ids : List Nat) : ∀ (f : FileState) (p : Nat),
    ids.Pairwise (· ≤ ·) → p ∈ ids → p < f.data.length →
    (patchRun f ids).1.data.getD p 0 = f.data.getD p 0 ||| 4 := by
  induction ids with
  | nil => intro f p _ hp _; cases hp
  | cons id rest ih =>
    intro f p hpw hp hlen
    obtain ⟨hhead, htail⟩ := List.pairwise_cons.mp hpw
    by_cases hid : id < f.data.length
    · simp only [patchRun, patchStep_eq_some hid]
      rcases List.mem_cons.mp hp with rfl | hpr
      · by_cases hpr2 : p ∈ rest
        · rw [ih ⟨setFlagByte f.data p, p + 1⟩ p htail hpr2
            (by rw [setFlagByte_length]; exact hlen)]
          rw [setFlagByte, getD_set_self hlen, or4_idem]
        · have hfr := (patchRun_frame rest ⟨setFlagByte f.data p, p + 1⟩).2.1 p hpr2
          rw [List.getD_eq_getElem?_getD, hfr, ← List.getD_eq_getElem?_getD]
          rw [setFlagByte, getD_set_self hlen]
      · have hstate : (setFlagByte f.data id).getD p 0 = f.data.getD p 0 ∨
            (setFlagByte f.data id).getD p 0 = f.data.getD p 0 ||| 4 := by
          by_cases hji : id = p
          · subst hji; exact Or.inr (getD_set_self hid _)
          · exact Or.inl (getD_set_ne hji _)
        rw [ih ⟨setFlagByte f.data id, id + 1⟩ p htail hpr
          (by rw [setFlagByte_length]; exact hlen)]
        rcases hstate with h | h
        · rw [h]
        · rw [h, or4_idem]
    · exfalso
      rcases List.mem_cons.mp hp with rfl | hpr
      · exact hid hlen
      · exact hid (lt_of_le_of_lt (hhead p hpr) hlen)

theorem patchIds_pairwise_lt (e : Nat) : (patchIds e).Pairwise (· < ·) := by
  rw [patchIds]
  exact List.Pairwise.map _
    (fun a b h => by
      have h1 : (a + 1) * EQUIPMENT_STRUCT_SIZE ≤ b * EQUIPMENT_STRUCT_SIZE :=
        Nat.mul_le_mul_right _ (by omega)
      simp only [EQUIPMENT_STRUCT_SIZE, FLYING_FLAG_OFFSET] at h1 ⊢
      omega)
    (List.pairwise_lt_range 200)

theorem patchIds_pairwise_le (e : Nat) : (patchIds e).Pairwise (· ≤ ·) :=
  (patchIds_pairwise_lt e).imp le_of_lt

theorem mem_patchIds {e j : Nat} :
    j ∈ patchIds e ↔ ∃ a, a < 200 ∧
      j = a * EQUIPMENT_STRUCT_SIZE + e + FLYING_FLAG_OFFSET := by
  simp only [patchIds, List.mem_map, List.mem_range]
  constructor
  · rintro ⟨a, ha, rfl⟩; exact ⟨a, ha, rfl⟩
  · rintro ⟨a, ha, rfl⟩; exact ⟨a, ha, rfl⟩

theorem patchIds_lt_length {e : Nat} {d : List Nat}
    (h : e + 199 * EQUIPMENT_STRUCT_SIZE + FLYING_FLAG_OFFSET < d.length) :
    ∀ id ∈ patchIds e, id < d.length := by
  intro id hid
  obtain ⟨a, ha, rfl⟩ := mem_patchIds.mp hid
  have h1 : a * EQUIPMENT_STRUCT_SIZE ≤ 199 * EQUIPMENT_STRUCT_SIZE :=
    Nat.mul_le_mul_right _ (by omega)
  simp only [EQUIPMENT_STRUCT_SIZE, FLYING_FLAG_OFFSET] at h1 h ⊢
  omega

/-! ## Helper lemmas: the signature scanner -/

theorem locate_aux_of_some {d sig : List Nat} :
    ∀ (r i loc : Nat), locate_aux d sig i r = some loc →
    matchesAt d sig loc = true ∧ i ≤ loc ∧ loc < i + r ∧
      ∀ j, i ≤ j → j < loc → matchesAt d sig j = false := by
  intro r
  induction r with
  | zero => intro i loc h; simp [locate_aux] at h
  | succ r ih =>
    intro i loc h
    rw [locate_aux] at h
    by_cases hm : matchesAt d sig i
    · simp only [hm, if_pos, Option.some.injEq] at h
      subst h
      exact ⟨hm, le_refl _, by omega, fun j h1 h2 => by omega⟩
    · simp only [hm, if_neg, Bool.false_eq_true, if_false] at h
      obtain ⟨h1, h2, h3, h4⟩ := ih (i + 1) loc h
      refine ⟨h1, by omega, by omega, fun j hj1 hj2 => ?_⟩
      rcases Nat.eq_or_lt_of_le hj1 with rfl | hj
      · exact Bool.eq_false_iff.mpr hm
      · exact h4 j hj hj2

theorem locate_aux_some_of {d sig : List Nat} :
    ∀ (r i loc : Nat), matchesAt d sig loc = true →
    (∀ j, i ≤ j → j < loc → matchesAt d sig j = false) →
    i ≤ loc → loc < i + r → locate_aux d sig i r = some loc := by
  intro r
  induction r with
  | zero => intro i loc _ _ h1 h2; omega
  | succ r ih =>
    intro i loc hm hprev h1 h2
    rw [locate_aux]
    rcases Nat.eq_or_lt_of_le h1 with rfl | hlt
    · simp [hm]
    · rw [if_neg (by simp [hprev i le_rfl hlt])]
      exact ih (i + 1) loc hm (fun j hj1 hj2 => hprev j (by omega) hj2) hlt (by omega)

theorem locate_signature_spec {d sig : List Nat} {loc : Nat}
    (h : locate_signature d sig = some loc) :
    matchesAt d sig loc = true ∧ loc ≤ d.length ∧
      ∀ j, j < loc → matchesAt d sig j = false := by
  obtain ⟨h1, _, h3, h4⟩ := locate_aux_of_some (d.length + 1) 0 loc h
  exact ⟨h1, by omega, fun j hj => h4 j (Nat.zero_le _) hj⟩

theorem window_eq {out d : List Nat} (k i : Nat)
    (h : ∀ m, m < i + k → out[m]? = d[m]?) :
    (out.drop i).take k = (d.drop i).take k := by
  apply List.ext_getElem?
  intro n
  by_cases hn : n < k
  · rw [List.getElem?_take, List.getElem?_take, if_pos hn, if_pos hn,
      List.getElem?_drop, List.getElem?_drop]
    exact h (i + n) (by omega)
  · rw [List.getElem?_take, List.getElem?_take, if_neg hn, if_neg hn]

theorem matchesAt_congr {out d sig : List Nat} (i : Nat)
    (h : ∀ m, m < i + sig.length → out[m]? = d[m]?) :
    matchesAt out sig i = matchesAt d sig i := by
  unfold matchesAt
  rw [window_eq sig.length i h]

theorem foldl_setFlag_fixed (ids : List Nat) : ∀ d : List Nat,
    (∀ id ∈ ids, setFlagByte d id = d) → ids.foldl setFlagByte d = d := by
  induction ids with
  | nil => intro d _; rfl
  | cons id rest ih =>
    intro d h
    rw [List.foldl_cons, h id (List.mem_cons_self ..)]
    exact ih d fun x hx => h x (List.mem_cons_of_mem _ hx)

theorem sampleFile_length : sampleFile.length = 10403 := by
  rw [sampleFile, List.length_append, List.length_replicate]
  rfl

theorem sampleFile_sig : locate_signature sampleFile EQUIPMENT_SIGNATURE = some 0 := by
  apply locate_aux_some_of
  · decide
  · intro j h1 h2; omega
  · exact le_refl 0
  · have := sampleFile_length; omega

theorem allow_all_flying_eq_of_some {d : List Nat} {loc : Nat}
    (h : locate_signature d EQUIPMENT_SIGNATURE = some loc) :
    (allow_all_flying d).data =
      (patchRun ⟨d, 0⟩ (patchIds (loc + OFFSET_FROM_SIGNATURE))).1.data := by
  simp only [allow_all_flying, h]

/-! ## Claims about the patch operation -/

/-- C2: for every file in which the equipment signature occurs (first
occurrence at `loc`), one application of `allow_all_flying` keeps the file
length, sets bit 2 (OR `0b100`) of the byte at `base + i*52 + 7` for each
in-file record index `i < 200` (`base = loc + 8`), leaves every byte at any
other position untouched, and even at the touched positions changes no bit
other than bit 2 (every byte ends equal to itself or itself OR `0b100`). -/
theorem allow_all_flying_once_frame (d : List Nat) (loc : Nat)
    (hloc : locate_signature d EQUIPMENT_SIGNATURE = some loc) :
    (allow_all_flying d).data.length = d.length ∧
    (∀ i, i < 200 →
      loc + OFFSET_FROM_SIGNATURE + i * EQUIPMENT_STRUCT_SIZE + FLYING_FLAG_OFFSET < d.length →
      (allow_all_flying d).data.getD
          (loc + OFFSET_FROM_SIGNATURE + i * EQUIPMENT_STRUCT_SIZE + FLYING_FLAG_OFFSET) 0 =
        d.getD (loc + OFFSET_FROM_SIGNATURE + i * EQUIPMENT_STRUCT_SIZE + FLYING_FLAG_OFFSET) 0
          ||| 4) ∧
    (∀ j, (∀ i, i < 200 →
        j ≠ loc + OFFSET_FROM_SIGNATURE + i * EQUIPMENT_STRUCT_SIZE + FLYING_FLAG_OFFSET) →
      (allow_all_flying d).data.getD j 0 = d.getD j 0) ∧
    (∀ j, (allow_all_flying d).data.getD j 0 = d.getD j 0 ∨
      (allow_all_flying d).data.getD j 0 = d.getD j 0 ||| 4) := by
  have hdata := allow_all_flying_eq_of_some hloc
  obtain ⟨hfl, hff, hfo⟩ := patchRun_frame (patchIds (loc + OFFSET_FROM_SIGNATURE)) ⟨d, 0⟩
  refine ⟨by rw [hdata]; exact hfl, ?_, ?_, ?_⟩
  · intro i hi hib
    have hmem : loc + OFFSET_FROM_SIGNATURE + i * EQUIPMENT_STRUCT_SIZE + FLYING_FLAG_OFFSET
        ∈ patchIds (loc + OFFSET_FROM_SIGNATURE) :=
      mem_patchIds.mpr ⟨i, hi, by ring⟩
    rw [hdata]
    exact patchRun_mem_getD _ ⟨d, 0⟩ _ (patchIds_pairwise_le _) hmem hib
  · intro j hj
    have hnm : j ∉ patchIds (loc + OFFSET_FROM_SIGNATURE) := by
      intro hmem
      obtain ⟨a, ha, hja⟩ := mem_patchIds.mp hmem
      exact hj a ha (hja.trans (by ring))
    rw [hdata, List.getD_eq_getElem?_getD, hff j hnm, ← List.getD_eq_getElem?_getD]
  · intro j; rw [hdata]; exact hfo j

theorem allow_all_flying_once_frame_holds :
    (allow_all_flying sampleFile).data.length = sampleFile.length :=
  (allow_all_flying_once_frame sampleFile 0 sampleFile_sig).1

/-- C3: applying the patch twice gives the same bytes as applying it once:
on a file holding the signature (first occurrence `loc`) with all 200 flag
bytes present, the first application ends in success and the second
application returns the first's outcome unchanged, because each touched
byte is OR-ed with a fixed mask, which only sets bits. -/
theorem allow_all_flying_idempotent (d : List Nat) (loc : Nat)
    (hloc : locate_signature d EQUIPMENT_SIGNATURE = some loc)
    (hlen : loc + OFFSET_FROM_SIGNATURE + 199 * EQUIPMENT_STRUCT_SIZE + FLYING_FLAG_OFFSET
      < d.length) :
    (allow_all_flying d).status = .success ∧
    allow_all_flying (allow_all_flying d).data = allow_all_flying d := by
  have hids : ∀ id ∈ patchIds (loc + OFFSET_FROM_SIGNATURE), id < d.length :=
    patchIds_lt_length hlen
  obtain ⟨hfold, hok⟩ :=
    patchRun_success (patchIds (loc + OFFSET_FROM_SIGNATURE)) ⟨d, 0⟩ hids
  have h1 : allow_all_flying d =
      ⟨.success, (patchRun ⟨d, 0⟩ (patchIds (loc + OFFSET_FROM_SIGNATURE))).1.data⟩ := by
    simp only [allow_all_flying, hloc, hok, if_true]
  obtain ⟨hm, hlocle, hfirst⟩ := locate_signature_spec hloc
  have hlen_out :
      (patchRun ⟨d, 0⟩ (patchIds (loc + OFFSET_FROM_SIGNATURE))).1.data.length = d.length :=
    (patchRun_frame (patchIds (loc + OFFSET_FROM_SIGNATURE)) ⟨d, 0⟩).1
  have hagree : ∀ m, m < loc + EQUIPMENT_SIGNATURE.length →
      (patchRun ⟨d, 0⟩ (patchIds (loc + OFFSET_FROM_SIGNATURE))).1.data[m]? = d[m]? := by
    intro m hmlt
    apply (patchRun_frame (patchIds (loc + OFFSET_FROM_SIGNATURE)) ⟨d, 0⟩).2.1
    intro hmem
    obtain ⟨a, _, ha⟩ := mem_patchIds.mp hmem
    have hm3 : m < loc + 3 := by simpa [EQUIPMENT_SIGNATURE] using hmlt
    simp only [EQUIPMENT_STRUCT_SIZE, FLYING_FLAG_OFFSET, OFFSET_FROM_SIGNATURE] at ha
    omega
  have hloc_out : locate_signature
      (patchRun ⟨d, 0⟩ (patchIds (loc + OFFSET_FROM_SIGNATURE))).1.data
      EQUIPMENT_SIGNATURE = some loc := by
    unfold locate_signature
    rw [hlen_out]
    apply locate_aux_some_of
    · rw [matchesAt_congr loc hagree]; exact hm
    · intro j hj1 hj2
      rw [matchesAt_congr j (fun m hm2 => hagree m (by omega))]
      exact hfirst j hj2
    · exact Nat.zero_le _
    · omega
  have hids_out : ∀ id ∈ patchIds (loc + OFFSET_FROM_SIGNATURE),
      id < (patchRun ⟨d, 0⟩ (patchIds (loc + OFFSET_FROM_SIGNATURE))).1.data.length := by
    rw [hlen_out]; exact hids
  obtain ⟨hfold2, hok2⟩ := patchRun_success (patchIds (loc + OFFSET_FROM_SIGNATURE))
    ⟨(patchRun ⟨d, 0⟩ (patchIds (loc + OFFSET_FROM_SIGNATURE))).1.data, 0⟩ hids_out
  have hfix : (patchIds (loc + OFFSET_FROM_SIGNATURE)).foldl setFlagByte
      (patchRun ⟨d, 0⟩ (patchIds (loc + OFFSET_FROM_SIGNATURE))).1.data =
      (patchRun ⟨d, 0⟩ (patchIds (loc + OFFSET_FROM_SIGNATURE))).1.data := by
    apply foldl_setFlag_fixed
    intro id hid
    have hset : (patchRun ⟨d, 0⟩ (patchIds (loc + OFFSET_FROM_SIGNATURE))).1.data.getD id 0 =
        d.getD id 0 ||| 4 :=
      patchRun_mem_getD _ ⟨d, 0⟩ id (patchIds_pairwise_le _) hid (hids id hid)
    rw [setFlagByte, hset, or4_idem, ← hset]
    exact set_getD_self _ id (by rw [hlen_out]; exact hids id hid)
  have h2 : allow_all_flying (patchRun ⟨d, 0⟩ (patchIds (loc + OFFSET_FROM_SIGNATURE))).1.data =
      ⟨.success, (patchRun ⟨d, 0⟩ (patchIds (loc + OFFSET_FROM_SIGNATURE))).1.data⟩ := by
    simp only [allow_all_flying, hloc_out, hok2, if_true]
    rw [PatchOutcome.mk.injEq]
    exact ⟨rfl, hfold2.trans hfix⟩
  refine ⟨by rw [h1], ?_⟩
  rw [h1]
  exact h2

theorem allow_all_flying_idempotent_holds :
    (allow_all_flying sampleFile).status = .success :=
  (allow_all_flying_idempotent sampleFile 0 sampleFile_sig
    (by rw [sampleFile_length]; decide)).1

/-- C4: when the equipment signature does not occur in the file, the patch
operation modifies no byte and ends with the signature-not-found outcome,
which is distinct from both the success and the I/O-failure outcomes. -/
theorem allow_all_flying_signature_absent (d : List Nat)
    (h : locate_signature d EQUIPMENT_SIGNATURE = none) :
    allow_all_flying d = ⟨.sigNotFound, d⟩ ∧
      PatchStatus.sigNotFound ≠ PatchStatus.success ∧
      PatchStatus.sigNotFound ≠ PatchStatus.ioError := by
  refine ⟨?_, by decide, by decide⟩
  simp only [allow_all_flying, h]

theorem allow_all_flying_signature_absent_holds :
    allow_all_flying [0, 0] = ⟨.sigNotFound, [0, 0]⟩ :=
  (allow_all_flying_signature_absent [0, 0] (by decide)).1

/-- C5: with all 200 record flag bytes inside the file, the patch loop
visits exactly the offsets `base + i*52 + 7` for `i = 0, ..., 199`, in
strictly increasing order, and its run over the file handle equals the
strictly sequential left fold of the independent single-byte
read-OR-write `setFlagByte` (read one byte, OR it with `0b100`, write it
back at the same offset) over those offsets. -/
theorem patch_loop_sequential_record_updates (d : List Nat) (base : Nat)
    (hlen : base + 199 * EQUIPMENT_STRUCT_SIZE + FLYING_FLAG_OFFSET < d.length) :
    patchIds base = (List.range 200).map
        (fun i => base + i * EQUIPMENT_STRUCT_SIZE + FLYING_FLAG_OFFSET) ∧
    (patchIds base).Pairwise (· < ·) ∧
    (patchRun ⟨d, 0⟩ (patchIds base)).2 = true ∧
    (patchRun ⟨d, 0⟩ (patchIds base)).1.data = (patchIds base).foldl setFlagByte d := by
  have hids : ∀ id ∈ patchIds base, id < d.length := patchIds_lt_length hlen
  obtain ⟨hfold, hok⟩ := patchRun_success (patchIds base) ⟨d, 0⟩ hids
  refine ⟨?_, patchIds_pairwise_lt base, hok, hfold⟩
  rw [patchIds]
  apply List.map_congr_left
  intro a _
  ring

theorem patch_loop_sequential_record_updates_holds :
    (patchRun ⟨sampleFile, 0⟩ (patchIds 8)).2 = true :=
  (patch_loop_sequential_record_updates sampleFile 8
    (by rw [sampleFile_length]; decide)).2.2.1

/-! ## Helper lemmas: the container codec -/

theorem toLE32_length (m : Nat) : (toLE32 m).length = 4 := rfl

theorem getD_append_at (A l : List Nat) (k : Nat) :
    (A ++ l).getD (A.length + k) 0 = l.getD k 0 := by
  rw [List.getD_append_right A l 0 (A.length + k) (Nat.le_add_right _ _)]
  congr 1
  omega

theorem readLE32At_append (A B : List Nat) (m : Nat) (hm : m < 4294967296) :
    readLE32At (A ++ (toLE32 m ++ B)) A.length = m := by
  have g0 : (A ++ (toLE32 m ++ B)).getD A.length 0 = m % 256 := by
    have h := getD_append_at A (toLE32 m ++ B) 0
    rw [Nat.add_zero] at h
    rw [h]; rfl
  have g1 : (A ++ (toLE32 m ++ B)).getD (A.length + 1) 0 = m / 256 % 256 := by
    rw [getD_append_at]; rfl
  have g2 : (A ++ (toLE32 m ++ B)).getD (A.length + 1 + 1) 0 = m / 65536 % 256 := by
    rw [show A.length + 1 + 1 = A.length + 2 from rfl, getD_append_at]; rfl
  have g3 : (A ++ (toLE32 m ++ B)).getD (A.length + 1 + 1 + 1) 0 = m / 16777216 % 256 := by
    rw [show A.length + 1 + 1 + 1 = A.length + 3 from rfl, getD_append_at]; rfl
  unfold readLE32At
  rw [g0, g1, g2, g3]
  omega

theorem mkTable_length : ∀ (sections : List (List Nat)) (off : Nat),
    (mkTable off sections).length = 8 * sections.length := by
  intro sections
  induction sections with
  | nil => intro off; rfl
  | cons s rest ih =>
    intro off
    simp only [mkTable, List.length_append, toLE32_length, ih, List.length_cons]
    omega

theorem sumLen_append (A B : List (List Nat)) :
    sumLen (A ++ B) = sumLen A + sumLen B := by
  simp [sumLen, List.map_append, List.sum_append]

theorem sumLen_take_le (sections : List (List Nat)) (i : Nat) :
    sumLen (sections.take i) ≤ sumLen sections := by
  conv_rhs => rw [← List.take_append_drop i sections]
  rw [sumLen_append]
  omega

theorem sumLen_take_succ (sections : List (List Nat)) (i : Nat)
    (h : i < sections.length) :
    sumLen (sections.take (i + 1)) =
      sumLen (sections.take i) + (sections.getD i []).length := by
  have hx : sections[i]? = some sections[i] := List.getElem?_eq_getElem h
  rw [List.take_succ, hx, sumLen_append]
  simp [sumLen, List.getD_eq_getElem?_getD, hx]

theorem sumLen_take_getD (sections : List (List Nat)) (i : Nat)
    (h : i < sections.length) :
    sumLen (sections.take i) + (sections.getD i []).length ≤ sumLen sections := by
  rw [← sumLen_take_succ sections i h]
  exact sumLen_take_le sections (i + 1)

theorem mkTable_decomp : ∀ (sections : List (List Nat)) (off i : Nat),
    i < sections.length →
    ∃ pre suf, mkTable off sections =
      pre ++ (toLE32 (off + sumLen (sections.take i)) ++
        (toLE32 (sections.getD i []).length ++ suf)) ∧
      pre.length = 8 * i := by
  intro sections
  induction sections with
  | nil => intro off i h; simp at h
  | cons s rest ih =>
    intro off i hi
    cases i with
    | zero =>
      refine ⟨[], mkTable (off + s.length) rest, ?_, rfl⟩
      simp [mkTable, sumLen, List.append_assoc]
    | succ i' =>
      have hi' : i' < rest.length := by simpa using hi
      obtain ⟨pre, suf, heq, hlen⟩ := ih (off + s.length) i' hi'
      refine ⟨toLE32 off ++ (toLE32 s.length ++ pre), suf, ?_, ?_⟩
      · have hs : off + s.length + sumLen (rest.take i') =
            off + sumLen ((s :: rest).take (i' + 1)) := by
          simp only [List.take_succ_cons, sumLen, List.map_cons, List.sum_cons]
          omega
        rw [mkTable, heq, hs]
        simp [List.append_assoc, List.getD_cons_succ]
      · simp only [List.length_append, toLE32_length, hlen]
        omega

theorem flatten_drop_sumLen : ∀ (sections : List (List Nat)) (i : Nat),
    sections.flatten.drop (sumLen (sections.take i)) = (sections.drop i).flatten := by
  intro sections
  induction sections with
  | nil => intro i; simp [sumLen]
  | cons s rest ih =>
    intro i
    cases i with
    | zero => simp [sumLen]
    | succ i' =>
      have h1 : sumLen ((s :: rest).take (i' + 1)) =
          s.length + sumLen (rest.take i') := by
        simp only [List.take_succ_cons, sumLen, List.map_cons, List.sum_cons]
      rw [h1, List.flatten_cons, List.drop_append, ih, List.drop_succ_cons]

theorem flatten_take_getD (sections : List (List Nat)) (i : Nat)
    (h : i < sections.length) :
    (sections.drop i).flatten.take (sections.getD i []).length = sections.getD i [] := by
  rw [List.drop_eq_getElem_cons h, List.flatten_cons, List.getD_eq_getElem _ _ h,
    List.take_left]

/-! ## The container round trip (C1) -/

/-- C1: writing any list of section buffers through the container writer
(declared count = list length) and reading the result back yields the same
section count, and extracting sections `0 .. n-1` reproduces each buffer
byte-for-byte. The size hypothesis keeps every table word inside the fixed
32-bit fields. -/
theorem container_roundtrip (sections : List (List Nat))
    (h : 4 + 8 * sections.length + sumLen sections < 4294967296) :
    section_count (packContainer sections) = sections.length ∧
    ∀ i, i < sections.length →
      section_begin_to_end (packContainer sections) i = some (sections.getD i []) := by
  have hflat : sections.flatten.length = sumLen sections := by
    simp [List.length_flatten, sumLen]
  have hclen : (packContainer sections).length =
      4 + 8 * sections.length + sumLen sections := by
    simp only [packContainer, List.length_append, toLE32_length, mkTable_length, hflat]
  have hcount : section_count (packContainer sections) = sections.length := by
    have hshape : packContainer sections =
        [] ++ (toLE32 sections.length ++
          (mkTable (4 + 8 * sections.length) sections ++ sections.flatten)) := by
      simp [packContainer, List.append_assoc]
    rw [section_count, hshape]
    have := readLE32At_append []
      (mkTable (4 + 8 * sections.length) sections ++ sections.flatten)
      sections.length (by omega)
    simpa using this
  refine ⟨hcount, ?_⟩
  intro i hi
  obtain ⟨pre, suf, heq, hplen⟩ :=
    mkTable_decomp sections (4 + 8 * sections.length) i hi
  have hoff_lt : 4 + 8 * sections.length + sumLen (sections.take i) < 4294967296 := by
    have := sumLen_take_le sections i
    omega
  have hlen_lt : (sections.getD i []).length < 4294967296 := by
    have := sumLen_take_getD sections i hi
    omega
  have hshape1 : packContainer sections =
      (toLE32 sections.length ++ pre) ++
        (toLE32 (4 + 8 * sections.length + sumLen (sections.take i)) ++
          (toLE32 (sections.getD i []).length ++ (suf ++ sections.flatten))) := by
    simp only [packContainer, heq]
    simp [List.append_assoc]
  have hA1len : (toLE32 sections.length ++ pre).length = 4 + 8 * i := by
    simp [toLE32_length, hplen]
  have hoff : readLE32At (packContainer sections) (4 + 8 * i) =
      4 + 8 * sections.length + sumLen (sections.take i) := by
    rw [hshape1, ← hA1len]
    exact readLE32At_append _ _ _ hoff_lt
  have hshape2 : packContainer sections =
      ((toLE32 sections.length ++ pre) ++
          toLE32 (4 + 8 * sections.length + sumLen (sections.take i))) ++
        (toLE32 (sections.getD i []).length ++ (suf ++ sections.flatten)) := by
    rw [hshape1]
    simp [List.append_assoc]
  have hA2len : ((toLE32 sections.length ++ pre) ++
      toLE32 (4 + 8 * sections.length + sumLen (sections.take i))).length
        = 4 + 8 * i + 4 := by
    simp only [List.length_append, toLE32_length, hplen]
  have hlen32 : readLE32At (packContainer sections) (4 + 8 * i + 4) =
      (sections.getD i []).length := by
    rw [hshape2, ← hA2len]
    exact readLE32At_append _ _ _ hlen_lt
  have hbound : 4 + 8 * sections.length + sumLen (sections.take i) +
      (sections.getD i []).length ≤ (packContainer sections).length := by
    rw [hclen]
    have := sumLen_take_getD sections i hi
    omega
  have hheadlen : (toLE32 sections.length ++
      mkTable (4 + 8 * sections.length) sections).length =
        4 + 8 * sections.length := by
    simp [toLE32_length, mkTable_length]
  have hextract : ((packContainer sections).drop
      (4 + 8 * sections.length + sumLen (sections.take i))).take
        (sections.getD i []).length = sections.getD i [] := by
    have hshape3 : packContainer sections =
        (toLE32 sections.length ++ mkTable (4 + 8 * sections.length) sections) ++
          sections.flatten := by
      simp [packContainer, List.append_assoc]
    rw [hshape3]
    rw [show 4 + 8 * sections.length + sumLen (sections.take i) =
        (toLE32 sections.length ++ mkTable (4 + 8 * sections.length) sections).length +
          sumLen (sections.take i) from by rw [hheadlen]]
    rw [List.drop_append, flatten_drop_sumLen]
    exact flatten_take_getD sections i hi
  rw [section_begin_to_end]
  rw [if_pos (by rw [hcount]; exact hi)]
  simp only [hoff, hlen32]
  rw [if_pos hbound, hextract]

theorem container_roundtrip_holds :
    section_count (packContainer [[1, 2], [], [3, 4, 5]]) = 3 ∧
      section_begin_to_end (packContainer [[1, 2], [], [3, 4, 5]]) 2 = some [3, 4, 5] := by
  have h := container_roundtrip [[1, 2], [], [3, 4, 5]] (by decide)
  exact ⟨h.1, h.2 2 (by decide)⟩

/-! ## Helper lemmas: the repack filter -/

theorem isDigit_toNat {c : Char} (h : c.isDigit = true) :
    48 ≤ c.toNat ∧ c.toNat ≤ 57 := by
  simp [Char.isDigit] at h
  exact h

theorem parseDigits_one_isSome (b : Char) :
    (parseDigits [b]).isSome = b.isDigit := by
  by_cases hb : b.isDigit = true
  · obtain ⟨h1, h2⟩ := isDigit_toNat hb
    rw [parseDigits]
    rw [if_neg (by simp : ¬([b] : List Char) = [])]
    rw [if_pos (by simp [hb] : ([b].all Char.isDigit) = true)]
    rw [if_pos (show ([b].foldl (fun a c => a * 10 + (c.toNat - 48)) 0) ≤ 255 by
      simp only [List.foldl_cons, List.foldl_nil]; omega)]
    simp [hb]
  · simp only [Bool.not_eq_true] at hb
    simp [parseDigits, hb]

theorem parseDigits_two_isSome (a b : Char) :
    (parseDigits [a, b]).isSome = (a.isDigit && b.isDigit) := by
  by_cases ha : a.isDigit = true <;> by_cases hb : b.isDigit = true
  · obtain ⟨ha1, ha2⟩ := isDigit_toNat ha
    obtain ⟨hb1, hb2⟩ := isDigit_toNat hb
    rw [parseDigits]
    rw [if_neg (by simp : ¬([a, b] : List Char) = [])]
    rw [if_pos (by simp [ha, hb] : ([a, b].all Char.isDigit) = true)]
    rw [if_pos (show ([a, b].foldl (fun a c => a * 10 + (c.toNat - 48)) 0) ≤ 255 by
      simp only [List.foldl_cons, List.foldl_nil]; omega)]
    simp [ha, hb]
  · simp only [Bool.not_eq_true] at hb
    simp [parseDigits, ha, hb]
  · simp only [Bool.not_eq_true] at ha
    simp [parseDigits, ha]
  · simp only [Bool.not_eq_true] at ha
    simp [parseDigits, ha]

theorem u8_from_str_two_isSome (a b : Char) :
    (u8_from_str [a, b]).isSome =
      ((a.isDigit && b.isDigit) || (a == '+' && b.isDigit)) := by
  have hpd : ('+' : Char).isDigit = false := by decide
  by_cases ha : a = '+'
  · subst ha
    simp [u8_from_str, parseDigits_one_isSome, hpd]
  · simp [u8_from_str, ha, parseDigits_two_isSome]

/-- C6 counterexample: `section_+1.bin` does not match the spec's
`section_<2-digit-zero-padded-index>.bin` convention, yet the repack filter
accepts it (Rust `u8::from_str` accepts a leading `+`), so repack includes
its contents in the output. -/
theorem repack_includes_non_convention_name :
    specNameConvention ("section_+1.bin".toList) = false ∧
      repackFilter ("section_+1.bin".toList) = true ∧
      repackWrites [⟨"section_+1.bin".toList, [9]⟩] = [[9]] := by
  refine ⟨by decide, by decide, ?_⟩
  have hf : repackFilter
      ['s', 'e', 'c', 't', 'i', 'o', 'n', '_', '+', '1', '.', 'b', 'i', 'n'] = true := by
    decide
  rw [repackWrites]
  rw [show List.filter (fun e => repackFilter e.name)
      [(⟨"section_+1.bin".toList, [9]⟩ : DirEntry)] =
      [(⟨"section_+1.bin".toList, [9]⟩ : DirEntry)] from by
    simp [List.filter, hf]]
  rw [List.mergeSort_singleton]
  rfl

/-- C6 amended: the repack filter accepts exactly the 14-character names
`section_` ++ t ++ `.bin` whose two characters `t` parse as a Rust `u8` —
that is, the spec's two-decimal-digit names plus the names where `t` is a
`+` sign followed by one digit; every other file is ignored. -/
theorem repack_filter_characterization (name : List Char) :
    repackFilter name = (specNameConvention name || plusNameForm name) := by
  by_cases hlen : name.length = 14
  · by_cases hpre : name.take 8 = "section_".toList
    · have h6 : (name.drop 8).length = 6 := by rw [List.length_drop, hlen]
      have hg8 : name.getD 8 ' ' = (name.drop 8).getD 0 ' ' := by
        simp [List.getD_eq_getElem?_getD, List.getElem?_drop]
      have hg9 : name.getD 9 ' ' = (name.drop 8).getD 1 ' ' := by
        simp [List.getD_eq_getElem?_getD, List.getElem?_drop]
      have hd10 : name.drop 10 = (name.drop 8).drop 2 := by
        rw [List.drop_drop]
      simp only [repackFilter, specNameConvention, plusNameForm, hlen, hpre, hg8, hg9,
        hd10, beq_self_eq_true, Bool.true_and, eq_self_iff_true, decide_True]
      generalize name.drop 8 = t at h6 ⊢
      obtain ⟨c0, c1, c2, c3, c4, c5, rfl⟩ :
          ∃ c0 c1 c2 c3 c4 c5, t = [c0, c1, c2, c3, c4, c5] := by
        rcases t with _ | ⟨c0, _ | ⟨c1, _ | ⟨c2, _ | ⟨c3, _ | ⟨c4, _ | ⟨c5, _ | ⟨c6, r⟩⟩⟩⟩⟩⟩⟩ <;>
          first
            | exact ⟨_, _, _, _, _, _, rfl⟩
            | (exfalso; simp [List.length] at h6)
      have hbin : (".bin".toList : List Char) = ['.', 'b', 'i', 'n'] := rfl
      rw [hbin]
      rw [show endsWith [c0, c1, c2, c3, c4, c5] ['.', 'b', 'i', 'n'] =
        decide ([c2, c3, c4, c5] = ['.', 'b', 'i', 'n']) from rfl]
      rw [show ([c0, c1, c2, c3, c4, c5] : List Char).take 2 = [c0, c1] from rfl]
      rw [show ([c0, c1, c2, c3, c4, c5] : List Char).drop 2 = [c2, c3, c4, c5] from rfl]
      rw [show ([c0, c1, c2, c3, c4, c5] : List Char).getD 0 ' ' = c0 from rfl]
      rw [show ([c0, c1, c2, c3, c4, c5] : List Char).getD 1 ' ' = c1 from rfl]
      rw [u8_from_str_two_isSome]
      cases hs : decide ([c2, c3, c4, c5] = ['.', 'b', 'i', 'n']) <;>
        cases hd0 : c0.isDigit <;> cases hd1 : c1.isDigit <;> cases hp2 : (c0 == '+') <;>
          simp [hs, hd0, hd1, hp2]
    · have hp : decide (name.take 8 = ['s', 'e', 'c', 't', 'i', 'o', 'n', '_']) = false := by
        apply decide_eq_false
        intro hx
        exact hpre (by rw [hx]; rfl)
      simp [repackFilter, specNameConvention, plusNameForm, hp]
  · have h14 : (name.length == 14) = false := by simp [hlen]
    simp [repackFilter, specNameConvention, plusNameForm, h14]

/-- C7: whatever order the directory walk produced, repack hands the
matching files' contents to `write_section` sorted by the numeric index
parsed from the file name (non-decreasing), one call per matching file, and
the processed sequence is a permutation of the matching files. -/
theorem repack_writes_index_order (listing : List DirEntry) :
    ((listing.filter fun e => repackFilter e.name).mergeSort
        fun a b => decide (sortKey a.name ≤ sortKey b.name)).Pairwise
      (fun a b => sortKey a.name ≤ sortKey b.name) ∧
    ((listing.filter fun e => repackFilter e.name).mergeSort
        fun a b => decide (sortKey a.name ≤ sortKey b.name)).Perm
      (listing.filter fun e => repackFilter e.name) ∧
    repackWrites listing = (((listing.filter fun e => repackFilter e.name).mergeSort
        fun a b => decide (sortKey a.name ≤ sortKey b.name)).map fun e => e.contents) := by
  refine ⟨?_, List.mergeSort_perm _ _, rfl⟩
  have hs := @List.sorted_mergeSort DirEntry
    (fun a b => decide (sortKey a.name ≤ sortKey b.name))
    (fun a b c hab hbc => by
      simp only [decide_eq_true_eq] at hab hbc ⊢
      exact le_trans hab hbc)
    (fun a b => by
      rcases le_total (sortKey a.name) (sortKey b.name) with h | h <;> simp [h])
    (listing.filter fun e => repackFilter e.name)
  exact hs.imp fun h => by simpa using h

/-- C8 counterexample: the failed-directory-creation path and the
failed-container-open path are different failure categories of the claim,
yet both end the process with exit code 1, so the categories are not
pairwise distinguishable by their exit signals. -/
theorem exit_code_conflation :
    exitCode .dirCreationFailed = exitCode .containerOpenFailed ∧
      FailureCategory.dirCreationFailed ≠ FailureCategory.containerOpenFailed := by
  exact ⟨rfl, by decide⟩

/-- C8 amended: every visible failure path ends the process with a non-zero
status, and signature-not-found (code 7) is distinct from every other
path's status; but failed directory creation and failed container open
share code 1, and failed container parse and failed section read share
code 2, so the five claimed categories are not pairwise distinct. -/
theorem exit_codes_nonzero_not_pairwise_distinct :
    (∀ c : FailureCategory, exitCode c ≠ 0) ∧
    (∀ c : FailureCategory, c ≠ .signatureNotFound →
      exitCode c ≠ exitCode .signatureNotFound) ∧
    exitCode .dirCreationFailed = exitCode .containerOpenFailed ∧
    exitCode .containerParseFailed = exitCode .sectionReadFailed := by
  refine ⟨fun c => by cases c <;> decide, fun c hc => by cases c <;> first | decide | exact absurd rfl hc, rfl, rfl⟩

theorem exit_codes_nonzero_not_pairwise_distinct_holds :
    exitCode .dirCreationFailed ≠ exitCode .signatureNotFound :=
  exit_codes_nonzero_not_pairwise_distinct.2.1 .dirCreationFailed (by decide)

/-! ## Helper lemmas: decimal digit counts -/

theorem natDigitsAux_length_pos :
    ∀ (fuel n : Nat), n < fuel → 1 ≤ (natDigitsAux fuel n).length := by
  intro fuel
  induction fuel with
  | zero => intro n h; omega
  | succ f ih =>
    intro n _
    rw [natDigitsAux]
    by_cases h10 : n < 10
    · rw [if_pos h10]; simp
    · rw [if_neg h10]
      simp [List.length_append]

theorem natDigitsAux_length_two :
    ∀ (fuel n : Nat), n < fuel → 10 ≤ n → 2 ≤ (natDigitsAux fuel n).length := by
  intro fuel
  induction fuel with
  | zero => intro n h _; omega
  | succ f ih =>
    intro n hf h10
    rw [natDigitsAux, if_neg (by omega)]
    have h1 : 1 ≤ (natDigitsAux f (n / 10)).length :=
      natDigitsAux_length_pos f (n / 10) (by omega)
    simp only [List.length_append, List.length_cons, List.length_nil]
    omega

theorem natDigits_length_three {n : Nat} (h : 100 ≤ n) :
    3 ≤ (natDigits n).length := by
  rw [natDigits, natDigitsAux, if_neg (by omega)]
  have h2 : 2 ≤ (natDigitsAux n (n / 10)).length :=
    natDigitsAux_length_two n (n / 10) (by omega) (by omega)
  simp only [List.length_append, List.length_cons, List.length_nil]
  omega

/-- C9: `unpack` names section `i` with `format!("section_{:02}.bin", i)`:
for `i < 100` this is a 14-character name the repack filter accepts, while
for `i >= 100` the index takes three or more digits, the name is longer
than 14 characters and the repack filter rejects it — so the file-level
unpack-then-repack round trip drops every section with index 100 or
greater. -/
theorem unpack_names_repack_boundary :
    (∀ i < 100, repackFilter (unpackName i) = true ∧ (unpackName i).length = 14) ∧
    (∀ i, 100 ≤ i → 14 < (unpackName i).length ∧ repackFilter (unpackName i) = false) := by
  constructor
  · decide
  · intro i hi
    have h3 : 3 ≤ (natDigits i).length := natDigits_length_three hi
    have hfm : fmt02 i = natDigits i := by rw [fmt02, if_neg (by omega)]
    have hlen : (unpackName i).length = 12 + (natDigits i).length := by
      rw [unpackName, hfm]
      simp only [List.length_append]
      rw [show ("section_".toList : List Char).length = 8 from rfl,
        show (".bin".toList : List Char).length = 4 from rfl]
      omega
    refine ⟨by omega, ?_⟩
    have h14 : ((unpackName i).length == 14) = false := by
      simp only [beq_eq_false_iff_ne, ne_eq, hlen]
      omega
    simp [repackFilter, h14]

theorem unpack_names_repack_boundary_holds :
    repackFilter (unpackName 5) = true ∧ repackFilter (unpackName 100) = false :=
  ⟨(unpack_names_repack_boundary.1 5 (by decide)).1,
   (unpack_names_repack_boundary.2 100 (by decide)).2⟩

/-- C10: called without an explicit output directory, `unpack` uses the
input path with its extension replaced by `unpacked` as destination: its
first filesystem effect is the recursive creation of that directory, and
every section write happens strictly after it. -/
theorem unpack_default_output_dir (battle_pack : List Char)
    (sections : List (List Nat)) :
    (unpackEffects battle_pack none sections).head? =
      some (FsOp.createDirAll (with_extension battle_pack "unpacked".toList)) ∧
    ∀ i dir nm bytes, (unpackEffects battle_pack none sections)[i]? =
      some (FsOp.writeFile dir nm bytes) → 0 < i := by
  constructor
  · rfl
  · intro i dir nm bytes h
    cases i with
    | zero =>
      rw [show (unpackEffects battle_pack none sections)[0]? =
        some (FsOp.createDirAll (with_extension battle_pack "unpacked".toList))
        from rfl] at h
      simp at h
    | succ n => omega

theorem unpack_default_output_dir_holds : 0 < 3 :=
  (unpack_default_output_dir ("pack.bin".toList) [[7]]).2 3
    (with_extension ("pack.bin".toList) ("unpacked".toList)) (unpackName 0) [7]
    (by decide)

end FF12
